import Mathlib

/-!
Verification of the `iff` shell-history picker (`src/main.rs`).

Strings are modelled as lists of characters (`Str`); Rust's `str::contains`,
`str::to_lowercase`, `str::trim().is_empty()` and `String::push`/`pop` are
modelled by executable functions over `Str`.  The interactive `App` struct and
its key-handling methods are embedded as pure state transitions.
-/

/-- A Rust string, modelled as its sequence of characters. -/
abbrev Str := List Char

/-- Models Rust `str::to_lowercase` (ASCII fragment, via `Char.toLower`). -/
def lower (s : Str) : Str := s.map Char.toLower

/-- Models Rust `str::starts_with(pat)`: `pat` is a prefix of `s`. -/
def startsWithL : Str → Str → Bool
  | _, [] => true
  | [], _ :: _ => false
  | a :: s, b :: p => a = b && startsWithL s p

/-- Models Rust `str::contains(pat)`: `pat` occurs as a contiguous substring of `s`. -/
def containsSub : Str → Str → Bool
  | [], p => p.isEmpty
  | a :: t, p => startsWithL (a :: t) p || containsSub t p

/-- `App::filter_commands` (src/main.rs:89-100): empty query gives every index;
otherwise the indices whose lowercased command contains the lowercased query. -/
def filter_commands (commands : List Str) (query : Str) : List Nat :=
  if query.isEmpty then
    List.range commands.length
  else
    ((commands.enum.filter (fun p => containsSub (lower p.2) (lower query))).map Prod.fst)

theorem startsWithL_iff (s p : Str) : startsWithL s p = true ↔ p <+: s := by
  induction s generalizing p with
  | nil =>
    cases p with
    | nil => simp [startsWithL]
    | cons b q => simp [startsWithL]
  | cons a t ih =>
    cases p with
    | nil => simp [startsWithL]
    | cons b q =>
      simp only [startsWithL, Bool.and_eq_true, decide_eq_true_eq, ih,
        List.cons_prefix_cons]
      constructor
      · rintro ⟨h1, h2⟩; exact ⟨h1.symm, h2⟩
      · rintro ⟨h1, h2⟩; exact ⟨h1.symm, h2⟩

theorem containsSub_iff (s p : Str) : containsSub s p = true ↔ p <:+: s := by
  induction s with
  | nil =>
    simp [containsSub, List.isEmpty_iff, List.infix_nil]
  | cons a t ih =>
    simp only [containsSub, Bool.or_eq_true, startsWithL_iff, ih,
      List.infix_cons_iff]

theorem filter_commands_sorted (H : List Str) (q : Str) :
    (filter_commands H q).Pairwise (· < ·) := by
  unfold filter_commands
  split
  · exact List.pairwise_lt_range _
  · have hsub : ((H.enum.filter
        (fun p => containsSub (lower p.2) (lower q))).map Prod.fst).Sublist
        (H.enum.map Prod.fst) :=
      (List.filter_sublist _).map _
    have : (H.enum.map Prod.fst) = List.range H.length := List.enum_map_fst H
    exact (List.pairwise_lt_range _).sublist (this ▸ hsub)

theorem filter_commands_mem (H : List Str) (q : Str) (hq : q ≠ []) (i : Nat) :
    i ∈ filter_commands H q ↔
      i < H.length ∧ containsSub (lower (H.getD i [])) (lower q) = true := by
  unfold filter_commands
  rw [if_neg (by simpa [List.isEmpty_iff] using hq)]
  simp only [List.mem_map, List.mem_filter]
  constructor
  · rintro ⟨⟨j, x⟩, ⟨hmem, hp⟩, rfl⟩
    rw [List.mk_mem_enum_iff_getElem?] at hmem
    have hlt : j < H.length := (List.getElem?_eq_some.mp hmem).1
    refine ⟨hlt, ?_⟩
    simpa [List.getD, hmem] using hp
  · rintro ⟨hlt, hc⟩
    refine ⟨(i, H.getD i []), ⟨?_, by simpa using hc⟩, rfl⟩
    rw [List.mk_mem_enum_iff_getElem?]
    simp [List.getD, List.getElem?_eq_getElem hlt]

/-- The remainder of `s` after the first `';'`, or `none` when `s` has no `';'`
(models Rust `line.find(';')` followed by `line[pos + 1..]`). -/
def afterSemi : Str → Option Str
  | [] => none
  | c :: rest => if c = ';' then some rest else afterSemi rest

/-- Per-line normalization in `App::load_history` (src/main.rs:67-75): a line
starting with `':'` is replaced by what follows its first `';'` (kept verbatim
when it has no `';'`); any other line is kept verbatim. -/
def normalize_line (line : Str) : Str :=
  if startsWithL line [':'] then
    match afterSemi line with
    | some rest => rest
    | none => line
  else line

/-- Models Rust `cmd.trim().is_empty()`: every character is whitespace. -/
def isBlank (s : Str) : Bool := s.all Char.isWhitespace

/-- `commands.retain(|cmd| seen.insert(cmd.clone()))` (src/main.rs:80-81):
keep each element not already in `seen`, inserting kept elements into `seen`. -/
def dedupAux (seen : List Str) : List Str → List Str
  | [] => []
  | c :: rest => if c ∈ seen then dedupAux seen rest else c :: dedupAux (c :: seen) rest

/-- The pure core of `App::load_history` (src/main.rs:57-88), applied to the raw
lines of the history file: normalize each line, drop blank lines, reverse, and
drop duplicates keeping the first occurrence of the reversed order. -/
def load_history_pure (lines : List Str) : List Str :=
  dedupAux [] (((lines.map normalize_line).filter (fun c => !(isBlank c))).reverse)

/-- Written from the spec's words: deduplicate a list by keeping each element's
first occurrence and erasing its later duplicates, preserving the order of the
survivors. -/
def eraseDupsKeepFirst : List Str → List Str
  | [] => []
  | c :: rest => c :: eraseDupsKeepFirst (rest.filter (fun x => x ≠ c))
termination_by l => l.length
decreasing_by
  simp only [List.length_cons]
  exact Nat.lt_succ_of_le (List.length_filter_le _ _)

theorem dedupAux_sublist (seen l : List Str) : (dedupAux seen l).Sublist l := by
  induction l generalizing seen with
  | nil => simp [dedupAux]
  | cons c rest ih =>
    unfold dedupAux
    split
    · exact (ih seen).trans (List.sublist_cons_self _ _)
    · exact (ih (c :: seen)).cons₂ _

theorem dedupAux_mem (seen l : List Str) (x : Str) :
    x ∈ dedupAux seen l ↔ x ∈ l ∧ x ∉ seen := by
  induction l generalizing seen with
  | nil => simp [dedupAux]
  | cons c rest ih =>
    unfold dedupAux
    split
    · rename_i hc
      rw [ih]
      constructor
      · rintro ⟨h1, h2⟩; exact ⟨List.mem_cons_of_mem _ h1, h2⟩
      · rintro ⟨h1, h2⟩
        rcases List.mem_cons.mp h1 with rfl | h1
        · exact absurd hc h2
        · exact ⟨h1, h2⟩
    · rename_i hc
      simp only [List.mem_cons, ih, List.mem_cons]
      constructor
      · rintro (rfl | ⟨h1, h2⟩)
        · exact ⟨Or.inl rfl, fun h => hc h⟩
        · exact ⟨Or.inr h1, fun h => h2 (Or.inr h)⟩
      · rintro ⟨rfl | h1, h2⟩
        · exact Or.inl rfl
        · by_cases hx : x = c
          · exact Or.inl hx
          · exact Or.inr ⟨h1, fun h => by
              rcases h with h' | h'
              · exact hx h'
              · exact h2 h'⟩

theorem dedupAux_nodup (seen l : List Str) : (dedupAux seen l).Nodup := by
  induction l generalizing seen with
  | nil => simp [dedupAux]
  | cons c rest ih =>
    unfold dedupAux
    split
    · exact ih seen
    · refine List.nodup_cons.mpr ⟨?_, ih (c :: seen)⟩
      intro hmem
      exact ((dedupAux_mem _ _ _).mp hmem).2 (List.mem_cons_self _ _)

theorem dedupAux_eq_eraseDupsKeepFirst (seen l : List Str) :
    dedupAux seen l = eraseDupsKeepFirst (l.filter (fun x => x ∉ seen)) := by
  induction l generalizing seen with
  | nil => simp [dedupAux, eraseDupsKeepFirst]
  | cons c rest ih =>
    unfold dedupAux
    split
    · rename_i hc
      rw [ih]
      congr 1
      rw [List.filter_cons]
      simp [hc]
    · rename_i hc
      rw [List.filter_cons, if_pos (by simp [hc]), eraseDupsKeepFirst, ih]
      congr 1
      rw [List.filter_filter]
      congr 1
      apply List.filter_congr
      intro x _
      simp [not_or]

/-- The scanning loop of `parse_command_string` (src/main.rs:243-262), with the
pending token `cur` and the `in_quotes` flag as arguments: a `'"'` toggles the
flag, a space outside quotes flushes the pending token if non-empty, any other
character is appended to the pending token; at the end the pending token is
flushed if non-empty. -/
def tokenize : Str → Str → Bool → List Str
  | [], cur, _ => if cur.isEmpty then [] else [cur]
  | c :: rest, cur, inq =>
    if c = '"' then tokenize rest cur (!inq)
    else if c = ' ' && !inq then
      if cur.isEmpty then tokenize rest cur inq else cur :: tokenize rest [] inq
    else tokenize rest (cur ++ [c]) inq

/-- `parse_command_string` (src/main.rs:238-268): tokenize the input starting
with an empty pending token outside quotes; the first token (or the empty
string) is the program, the remaining tokens are the arguments. -/
def parse_command_string (input : Str) : Str × List Str :=
  let parts := tokenize input [] false
  (parts.headD [], parts.tail)

/-- Written from the spec's words: one step of the left-to-right scan, on the
state (tokens emitted so far, current token, inside-quotes mode).  A double
quote toggles the mode and is not included in the output; a space outside
quotes is a token boundary that emits no empty token; every other character is
appended to the current token. -/
def specStep (st : List Str × Str × Bool) (c : Char) : List Str × Str × Bool :=
  if c = '"' then (st.1, st.2.1, !st.2.2)
  else if c = ' ' && !st.2.2 then
    if st.2.1.isEmpty then (st.1, st.2.1, st.2.2) else (st.1 ++ [st.2.1], [], st.2.2)
  else (st.1, st.2.1 ++ [c], st.2.2)

/-- Written from the spec's words: scan the characters left to right starting
with no emitted tokens, an empty current token and quotes mode off, and at the
end of input flush the current token if non-empty. -/
def specTokenize (input : Str) : List Str :=
  let st := input.foldl specStep ([], [], false)
  st.1 ++ (if st.2.1.isEmpty then [] else [st.2.1])

theorem foldl_specStep_append (input : Str) (toks : List Str) (cur : Str)
    (inq : Bool) :
    input.foldl specStep (toks, cur, inq) =
      ((toks ++ (input.foldl specStep ([], cur, inq)).1,
        (input.foldl specStep ([], cur, inq)).2)) := by
  induction input generalizing toks cur inq with
  | nil => simp
  | cons c rest ih =>
    simp only [List.foldl_cons, specStep]
    by_cases hq : c = '"'
    · simp only [hq, reduceIte]
      rw [ih toks cur (!inq)]
    · by_cases hs : (c = ' ' && !inq) = true
      · by_cases he : cur.isEmpty = true
        · simp only [hq, reduceIte, hs, he]
          rw [ih toks cur inq]
        · simp only [hq, reduceIte, hs, he, Bool.false_eq_true, if_false,
            List.nil_append]
          rw [ih (toks ++ [cur]) [] inq, ih [cur] [] inq]
          simp
      · simp only [hq, reduceIte, hs, Bool.false_eq_true, if_false]
        rw [ih toks (cur ++ [c]) inq]

theorem tokenize_eq_specTokenize_aux (input : Str) (cur : Str) (inq : Bool) :
    tokenize input cur inq =
      (input.foldl specStep ([], cur, inq)).1 ++
        (if (input.foldl specStep ([], cur, inq)).2.1.isEmpty then []
         else [(input.foldl specStep ([], cur, inq)).2.1]) := by
  induction input generalizing cur inq with
  | nil => simp [tokenize]
  | cons c rest ih =>
    simp only [List.foldl_cons, specStep]
    by_cases hq : c = '"'
    · rw [tokenize, if_pos hq, ih cur (!inq)]
      simp only [hq, reduceIte]
    · by_cases hs : (c = ' ' && !inq) = true
      · by_cases he : cur.isEmpty = true
        · rw [tokenize, if_neg hq, if_pos hs, if_pos he, ih cur inq]
          simp only [hq, reduceIte, hs, he]
        · rw [tokenize, if_neg hq, if_pos hs, if_neg he, ih [] inq]
          simp only [hq, reduceIte, hs, he, Bool.false_eq_true, if_false,
            List.nil_append]
          rw [foldl_specStep_append rest [cur] [] inq]
          simp
      · rw [tokenize, if_neg hq, if_neg hs, ih (cur ++ [c]) inq]
        simp only [hq, reduceIte, hs, Bool.false_eq_true, if_false]

theorem tokenize_eq_specTokenize (input : Str) :
    tokenize input [] false = specTokenize input :=
  tokenize_eq_specTokenize_aux input [] false

theorem tokenize_tokens (input : Str) (cur : Str) (inq : Bool)
    (hcur : '"' ∉ cur) :
    ∀ t ∈ tokenize input cur inq, t ≠ [] ∧ '"' ∉ t := by
  induction input generalizing cur inq with
  | nil =>
    intro t ht
    rw [tokenize] at ht
    by_cases he : cur.isEmpty = true
    · rw [if_pos he] at ht
      simp at ht
    · rw [if_neg he] at ht
      rcases List.mem_singleton.mp ht with rfl
      exact ⟨by simpa [List.isEmpty_iff] using he, hcur⟩
  | cons c rest ih =>
    intro t ht
    rw [tokenize] at ht
    by_cases hq : c = '"'
    · rw [if_pos hq] at ht
      exact ih cur (!inq) hcur t ht
    · rw [if_neg hq] at ht
      by_cases hs : (c = ' ' && !inq) = true
      · rw [if_pos hs] at ht
        by_cases he : cur.isEmpty = true
        · rw [if_pos he] at ht
          exact ih cur inq hcur t ht
        · rw [if_neg he] at ht
          rcases List.mem_cons.mp ht with rfl | ht
          · exact ⟨by simpa [List.isEmpty_iff] using he, hcur⟩
          · exact ih [] inq (by simp) t ht
      · rw [if_neg hs] at ht
        refine ih (cur ++ [c]) inq ?_ t ht
        intro hmem
        rcases List.mem_append.mp hmem with h | h
        · exact hcur h
        · exact hq (List.mem_singleton.mp h).symm

/-- The key events the core reacts to, as classified by the `match` in
`App::handle_key` (src/main.rs:113-142): a character key, Escape, Down, Up,
Backspace, Enter, or anything else. -/
inductive Key where
  | char (c : Char)
  | esc
  | down
  | up
  | back
  | enter
  | other
deriving DecidableEq

/-- The `App` struct (src/main.rs:27-34).  `list_state` is ratatui's
`ListState` reduced to its selected index. -/
structure App where
  should_quit : Bool
  command_history : List Str
  list_state : Option Nat
  search_input : Str
  filtered_commands : List Nat
  selected_command : Option Str
deriving DecidableEq

/-- `App::new` (src/main.rs:37-55), with the loaded history passed in: the seed
query is the CLI arguments joined by spaces, the filtered view is computed from
it, and the selection is 0 when the view is non-empty (else ratatui's default,
no selection). -/
def App.new (history : List Str) (initial_args : List Str) : App :=
  let search_input := (initial_args.intersperse [' ']).flatten
  let filtered_commands := filter_commands history search_input
  { should_quit := false
    command_history := history
    list_state := if filtered_commands.isEmpty then none else some 0
    search_input := search_input
    filtered_commands := filtered_commands
    selected_command := none }

/-- `App::update_filter` (src/main.rs:102-111): recompute the filtered view
from the current query and reset the selection to 0, or to none when the view
is empty. -/
def App.update_filter (a : App) : App :=
  let f := filter_commands a.command_history a.search_input
  { a with
    filtered_commands := f
    list_state := if f.isEmpty then none else some 0 }

/-- `App::select_next` (src/main.rs:144-160). -/
def App.select_next (a : App) : App :=
  if a.filtered_commands.isEmpty then a
  else
    let i := match a.list_state with
      | some i => if i ≥ a.filtered_commands.length - 1 then 0 else i + 1
      | none => 0
    { a with list_state := some i }

/-- `App::select_previous` (src/main.rs:162-178). -/
def App.select_previous (a : App) : App :=
  if a.filtered_commands.isEmpty then a
  else
    let i := match a.list_state with
      | some i => if i = 0 then a.filtered_commands.length - 1 else i - 1
      | none => 0
    { a with list_state := some i }

/-- `App::handle_key` (src/main.rs:113-142).  `'q'`/Escape quit, Down/`'j'`
and Up/`'k'` navigate, any other character is appended to the query, Backspace
removes the query's last character, Enter resolves the selection (the Rust
`self.command_history[cmd_idx]` index is total here via `getD`; it is in range
in every reachable state) and quits; other keys do nothing. -/
def App.handle_key (a : App) (k : Key) : App :=
  match k with
  | .esc => { a with should_quit := true }
  | .down => a.select_next
  | .up => a.select_previous
  | .char c =>
    if c = 'q' then { a with should_quit := true }
    else if c = 'j' then a.select_next
    else if c = 'k' then a.select_previous
    else App.update_filter { a with search_input := a.search_input ++ [c] }
  | .back =>
    App.update_filter { a with search_input := a.search_input.dropLast }
  | .enter =>
    let a' :=
      match a.list_state with
      | some selected =>
        match a.filtered_commands.get? selected with
        | some cmd_idx =>
          { a with selected_command := some (a.command_history.getD cmd_idx []) }
        | none => a
      | none => a
    { a' with should_quit := true }
  | .other => a

/-- The event loop of `main` (src/main.rs:277-287) applied to a list of key
events (the loop stops once `should_quit` is set; `run` keeps folding, which
agrees with the loop on every prefix up to termination). -/
def run (a : App) : List Key → App
  | [] => a
  | k :: ks => run (a.handle_key k) ks

/-- The outcome of `main` after the loop (src/main.rs:292-299): either exit
with a status code, or replace the process with a program and arguments. -/
inductive ExitOutcome where
  | exited (code : Nat)
  | launch (prog : Str) (args : List Str)
deriving DecidableEq

/-- The tail of `main` (src/main.rs:292-299): with no selected command the
process exits with status 0; with one, it is parsed and the process image is
replaced by the parsed program (exec failure would exit 1 afterwards, which is
outside the model). -/
def finish (selected : Option Str) : ExitOutcome :=
  match selected with
  | some command =>
    let p := parse_command_string command
    ExitOutcome.launch p.1 p.2
  | none => ExitOutcome.exited 0

/-- The selection invariant: the cursor is absent exactly when the filtered
view is empty, and otherwise holds an index into the filtered view. -/
def InvSel (a : App) : Prop :=
  (a.filtered_commands = [] → a.list_state = none) ∧
  (a.filtered_commands ≠ [] →
    ∃ i, a.list_state = some i ∧ i < a.filtered_commands.length)

/-- The filtered view is the filter of the history by the current query. -/
def Coherent (a : App) : Prop :=
  a.filtered_commands = filter_commands a.command_history a.search_input

theorem InvSel_new (history initial_args : List Str) :
    InvSel (App.new history initial_args) := by
  unfold InvSel App.new
  by_cases h : (filter_commands history
      ((initial_args.intersperse [' ']).flatten)).isEmpty = true
  · simp only [h, if_pos rfl]
    refine ⟨fun _ => rfl, fun hne => ?_⟩
    exact absurd (List.isEmpty_iff.mp h) hne
  · simp only [h, if_neg h]
    refine ⟨fun he => ?_, fun hne => ?_⟩
    · exact absurd (List.isEmpty_iff.mpr he) h
    · refine ⟨0, rfl, ?_⟩
      have := fun he => h (List.isEmpty_iff.mpr he)
      exact List.length_pos.mpr (by intro he; exact h (List.isEmpty_iff.mpr he))

theorem InvSel_update_filter (a : App) : InvSel a.update_filter := by
  unfold InvSel App.update_filter
  by_cases h : (filter_commands a.command_history a.search_input).isEmpty = true
  · simp only [h, if_pos rfl]
    refine ⟨fun _ => rfl, fun hne => absurd (List.isEmpty_iff.mp h) hne⟩
  · simp only [h, if_neg h]
    refine ⟨fun he => absurd (List.isEmpty_iff.mpr he) h, fun _ => ?_⟩
    exact ⟨0, rfl, List.length_pos.mpr (fun he => h (List.isEmpty_iff.mpr he))⟩

theorem handle_key_esc_eq (a : App) :
    a.handle_key Key.esc = { a with should_quit := true } := rfl

theorem handle_key_down_eq (a : App) : a.handle_key Key.down = a.select_next := rfl

theorem handle_key_up_eq (a : App) : a.handle_key Key.up = a.select_previous := rfl

theorem handle_key_other_eq (a : App) : a.handle_key Key.other = a := rfl

theorem handle_key_back_eq (a : App) :
    a.handle_key Key.back =
      App.update_filter { a with search_input := a.search_input.dropLast } := rfl

theorem handle_key_char_q (a : App) :
    a.handle_key (Key.char 'q') = { a with should_quit := true } := rfl

theorem handle_key_char_j (a : App) :
    a.handle_key (Key.char 'j') = a.select_next := rfl

theorem handle_key_char_k (a : App) :
    a.handle_key (Key.char 'k') = a.select_previous := rfl

theorem handle_key_char_eq (a : App) (c : Char) (hq : c ≠ 'q') (hj : c ≠ 'j')
    (hk : c ≠ 'k') :
    a.handle_key (Key.char c) =
      App.update_filter { a with search_input := a.search_input ++ [c] } := by
  simp [App.handle_key, hq, hj, hk]

theorem handle_key_enter_none (a : App) (hls : a.list_state = none) :
    a.handle_key Key.enter = { a with should_quit := true } := by
  simp [App.handle_key, hls]

theorem handle_key_enter_oob (a : App) (selected : Nat)
    (hls : a.list_state = some selected)
    (hg : a.filtered_commands.get? selected = none) :
    a.handle_key Key.enter = { a with should_quit := true } := by
  rw [List.get?_eq_getElem?] at hg
  simp [App.handle_key, hls, hg]

theorem handle_key_enter_some (a : App) (selected cmd_idx : Nat)
    (hls : a.list_state = some selected)
    (hg : a.filtered_commands.get? selected = some cmd_idx) :
    a.handle_key Key.enter =
      { a with should_quit := true,
               selected_command := some (a.command_history.getD cmd_idx []) } := by
  rw [List.get?_eq_getElem?] at hg
  simp [App.handle_key, hls, hg, List.getD]

theorem select_next_empty (a : App) (h : a.filtered_commands = []) :
    a.select_next = a := by
  unfold App.select_next
  rw [if_pos (by simpa [List.isEmpty_iff] using h)]

theorem select_next_none (a : App) (hne : a.filtered_commands ≠ [])
    (hls : a.list_state = none) :
    a.select_next = { a with list_state := some 0 } := by
  unfold App.select_next
  rw [if_neg (by simpa [List.isEmpty_iff] using hne), hls]

theorem select_next_some (a : App) (i : Nat) (hne : a.filtered_commands ≠ [])
    (hls : a.list_state = some i) :
    a.select_next =
      { a with
        list_state := some (if i ≥ a.filtered_commands.length - 1 then 0 else i + 1) } := by
  unfold App.select_next
  rw [if_neg (by simpa [List.isEmpty_iff] using hne), hls]

theorem select_previous_empty (a : App) (h : a.filtered_commands = []) :
    a.select_previous = a := by
  unfold App.select_previous
  rw [if_pos (by simpa [List.isEmpty_iff] using h)]

theorem select_previous_none (a : App) (hne : a.filtered_commands ≠ [])
    (hls : a.list_state = none) :
    a.select_previous = { a with list_state := some 0 } := by
  unfold App.select_previous
  rw [if_neg (by simpa [List.isEmpty_iff] using hne), hls]

theorem select_previous_some (a : App) (i : Nat) (hne : a.filtered_commands ≠ [])
    (hls : a.list_state = some i) :
    a.select_previous =
      { a with
        list_state := some (if i = 0 then a.filtered_commands.length - 1 else i - 1) } := by
  unfold App.select_previous
  rw [if_neg (by simpa [List.isEmpty_iff] using hne), hls]

theorem InvSel_select_next (a : App) (ha : InvSel a) : InvSel a.select_next := by
  by_cases h : a.filtered_commands = []
  · rw [select_next_empty a h]; exact ha
  · have hpos : 0 < a.filtered_commands.length := List.length_pos.mpr h
    cases hls : a.list_state with
    | none =>
      rw [select_next_none a h hls]
      exact ⟨fun he => absurd he h, fun _ => ⟨0, rfl, hpos⟩⟩
    | some i =>
      rw [select_next_some a i h hls]
      refine ⟨fun he => absurd he h, fun _ => ⟨_, rfl, ?_⟩⟩
      show (if i ≥ a.filtered_commands.length - 1 then 0 else i + 1) <
        a.filtered_commands.length
      split <;> omega

theorem InvSel_select_previous (a : App) (ha : InvSel a) :
    InvSel a.select_previous := by
  by_cases h : a.filtered_commands = []
  · rw [select_previous_empty a h]; exact ha
  · have hpos : 0 < a.filtered_commands.length := List.length_pos.mpr h
    cases hls : a.list_state with
    | none =>
      rw [select_previous_none a h hls]
      exact ⟨fun he => absurd he h, fun _ => ⟨0, rfl, hpos⟩⟩
    | some i =>
      obtain ⟨j, hj, hjl⟩ := ha.2 h
      rw [hls] at hj
      cases hj
      rw [select_previous_some a i h hls]
      refine ⟨fun he => absurd he h, fun _ => ⟨_, rfl, ?_⟩⟩
      show (if i = 0 then a.filtered_commands.length - 1 else i - 1) <
        a.filtered_commands.length
      split <;> omega

theorem InvSel_handle_key (a : App) (k : Key) (ha : InvSel a) :
    InvSel (a.handle_key k) := by
  cases k with
  | esc => exact ha
  | down => exact InvSel_select_next a ha
  | up => exact InvSel_select_previous a ha
  | char c =>
    by_cases hq : c = 'q'
    · subst hq; rw [handle_key_char_q]; exact ha
    · by_cases hj : c = 'j'
      · subst hj; rw [handle_key_char_j]; exact InvSel_select_next a ha
      · by_cases hk : c = 'k'
        · subst hk; rw [handle_key_char_k]; exact InvSel_select_previous a ha
        · rw [handle_key_char_eq a c hq hj hk]; exact InvSel_update_filter _
  | back => rw [handle_key_back_eq]; exact InvSel_update_filter _
  | enter =>
    cases hls : a.list_state with
    | none => rw [handle_key_enter_none a hls]; exact ha
    | some selected =>
      cases hg : a.filtered_commands.get? selected with
      | none => rw [handle_key_enter_oob a selected hls hg]; exact ha
      | some cmd_idx => rw [handle_key_enter_some a selected cmd_idx hls hg]; exact ha
  | other => exact ha

theorem InvSel_run (a : App) (ks : List Key) (ha : InvSel a) :
    InvSel (run a ks) := by
  induction ks generalizing a with
  | nil => exact ha
  | cons k ks ih => exact ih _ (InvSel_handle_key a k ha)

theorem Coherent_new (history initial_args : List Str) :
    Coherent (App.new history initial_args) := rfl

theorem Coherent_update_filter (a : App) : Coherent a.update_filter := rfl

theorem Coherent_handle_key (a : App) (k : Key) (ha : Coherent a) :
    Coherent (a.handle_key k) := by
  cases k with
  | esc => exact ha
  | down =>
    by_cases h : a.filtered_commands = []
    · rw [handle_key_down_eq, select_next_empty a h]; exact ha
    · cases hls : a.list_state with
      | none => rw [handle_key_down_eq, select_next_none a h hls]; exact ha
      | some i => rw [handle_key_down_eq, select_next_some a i h hls]; exact ha
  | up =>
    by_cases h : a.filtered_commands = []
    · rw [handle_key_up_eq, select_previous_empty a h]; exact ha
    · cases hls : a.list_state with
      | none => rw [handle_key_up_eq, select_previous_none a h hls]; exact ha
      | some i => rw [handle_key_up_eq, select_previous_some a i h hls]; exact ha
  | char c =>
    by_cases hq : c = 'q'
    · subst hq; rw [handle_key_char_q]; exact ha
    · by_cases hj : c = 'j'
      · subst hj; rw [handle_key_char_j]
        by_cases h : a.filtered_commands = []
        · rw [select_next_empty a h]; exact ha
        · cases hls : a.list_state with
          | none => rw [select_next_none a h hls]; exact ha
          | some i => rw [select_next_some a i h hls]; exact ha
      · by_cases hk : c = 'k'
        · subst hk; rw [handle_key_char_k]
          by_cases h : a.filtered_commands = []
          · rw [select_previous_empty a h]; exact ha
          · cases hls : a.list_state with
            | none => rw [select_previous_none a h hls]; exact ha
            | some i => rw [select_previous_some a i h hls]; exact ha
        · rw [handle_key_char_eq a c hq hj hk]; exact Coherent_update_filter _
  | back => rw [handle_key_back_eq]; exact Coherent_update_filter _
  | enter =>
    cases hls : a.list_state with
    | none => rw [handle_key_enter_none a hls]; exact ha
    | some selected =>
      cases hg : a.filtered_commands.get? selected with
      | none => rw [handle_key_enter_oob a selected hls hg]; exact ha
      | some cmd_idx => rw [handle_key_enter_some a selected cmd_idx hls hg]; exact ha
  | other => exact ha

theorem Coherent_run (a : App) (ks : List Key) (ha : Coherent a) :
    Coherent (run a ks) := by
  induction ks generalizing a with
  | nil => exact ha
  | cons k ks ih => exact ih _ (Coherent_handle_key a k ha)

theorem update_filter_search (a : App) :
    a.update_filter.search_input = a.search_input := rfl

theorem update_filter_reset (a : App) :
    a.update_filter.list_state =
      (if a.update_filter.filtered_commands = [] then none else some 0) := by
  unfold App.update_filter
  by_cases h : filter_commands a.command_history a.search_input = []
  · simp [h]
  · simp [h, List.isEmpty_iff]

theorem select_next_search (a : App) :
    a.select_next.search_input = a.search_input := by
  unfold App.select_next
  split
  · rfl
  · rfl

theorem select_previous_search (a : App) :
    a.select_previous.search_input = a.search_input := by
  unfold App.select_previous
  split
  · rfl
  · rfl

theorem handle_key_enter_search (a : App) :
    (a.handle_key Key.enter).search_input = a.search_input := by
  cases hls : a.list_state with
  | none => rw [handle_key_enter_none a hls]
  | some selected =>
    cases hg : a.filtered_commands.get? selected with
    | none => rw [handle_key_enter_oob a selected hls hg]
    | some cmd_idx => rw [handle_key_enter_some a selected cmd_idx hls hg]

/-- The query contains none of the reserved interactive keys. -/
def NoQJK (s : Str) : Prop := ∀ x ∈ s, x ≠ 'q' ∧ x ≠ 'j' ∧ x ≠ 'k'

theorem NoQJK_handle_key (a : App) (k : Key) (ha : NoQJK a.search_input) :
    NoQJK (a.handle_key k).search_input := by
  cases k with
  | esc => exact ha
  | down => rw [handle_key_down_eq, select_next_search]; exact ha
  | up => rw [handle_key_up_eq, select_previous_search]; exact ha
  | char c =>
    by_cases hq : c = 'q'
    · subst hq; rw [handle_key_char_q]; exact ha
    · by_cases hj : c = 'j'
      · subst hj; rw [handle_key_char_j, select_next_search]; exact ha
      · by_cases hk : c = 'k'
        · subst hk; rw [handle_key_char_k, select_previous_search]; exact ha
        · rw [handle_key_char_eq a c hq hj hk, update_filter_search]
          intro x hx
          rcases List.mem_append.mp hx with h | h
          · exact ha x h
          · rcases List.mem_singleton.mp h with rfl
            exact ⟨hq, hj, hk⟩
  | back =>
    rw [handle_key_back_eq, update_filter_search]
    intro x hx
    exact ha x ((List.dropLast_sublist _).subset hx)
  | enter =>
    rw [handle_key_enter_search]
    exact ha
  | other => exact ha

theorem NoQJK_run (a : App) (ks : List Key) (ha : NoQJK a.search_input) :
    NoQJK (run a ks).search_input := by
  induction ks generalizing a with
  | nil => exact ha
  | cons k ks ih => exact ih _ (NoQJK_handle_key a k ha)

theorem afterSemi_append (pre post : Str) (h : ';' ∉ pre) :
    afterSemi (pre ++ ';' :: post) = some post := by
  induction pre with
  | nil => simp [afterSemi]
  | cons c rest ih =>
    have hc : c ≠ ';' := fun hc => h (hc ▸ List.mem_cons_self _ _)
    simp only [List.cons_append, afterSemi, if_neg hc]
    exact ih (fun hm => h (List.mem_cons_of_mem _ hm))

theorem afterSemi_none (l : Str) (h : ';' ∉ l) : afterSemi l = none := by
  induction l with
  | nil => rfl
  | cons c rest ih =>
    have hc : c ≠ ';' := fun hc => h (hc ▸ List.mem_cons_self _ _)
    simp only [afterSemi, if_neg hc]
    exact ih (fun hm => h (List.mem_cons_of_mem _ hm))

/-- C1: for every history H and query q, `filter_commands` returns the identity
index sequence over the whole history when q is empty, and otherwise exactly
the indices i, in increasing (original) order, whose lowercased entry contains
the lowercased query as a substring. -/
theorem c1_filter_correct (H : List Str) (q : Str) :
    (q = [] → filter_commands H q = List.range H.length) ∧
    (filter_commands H q).Pairwise (· < ·) ∧
    (q ≠ [] → ∀ i, i ∈ filter_commands H q ↔
      i < H.length ∧ lower q <:+: lower (H.getD i [])) := by
  refine ⟨?_, filter_commands_sorted H q, fun hq i => ?_⟩
  · rintro rfl
    simp [filter_commands]
  · rw [filter_commands_mem H q hq i]
    constructor
    · rintro ⟨h1, h2⟩; exact ⟨h1, (containsSub_iff _ _).mp h2⟩
    · rintro ⟨h1, h2⟩; exact ⟨h1, (containsSub_iff _ _).mpr h2⟩

/-- Witness for C1 at a concrete history and queries. -/
theorem c1_witness :
    filter_commands ["ls".data, "Cd x".data] [] = List.range 2 ∧
    (1 ∈ filter_commands ["ls".data, "Cd x".data] "cd".data ↔
      1 < (["ls".data, "Cd x".data] : List Str).length ∧
        lower "cd".data <:+: lower ((["ls".data, "Cd x".data] : List Str).getD 1 [])) :=
  ⟨(c1_filter_correct ["ls".data, "Cd x".data] []).1 rfl,
   (c1_filter_correct ["ls".data, "Cd x".data] "cd".data).2.2 (by decide) 1⟩

/-- C2: the loaded history is the reversed normalized line list with duplicate
texts removed keeping the first occurrence of the reversed (most-recent-first)
order: it is duplicate-free, a subsequence of the reversed list, equals the
keep-first-occurrence deduplication of the reversed list, and the raw lines
ls, cd /tmp, ls -la, ls load as ls, ls -la, cd /tmp. -/
theorem c2_load_history (lines : List Str) :
    (load_history_pure lines).Nodup ∧
    (load_history_pure lines).Sublist
      (((lines.map normalize_line).filter (fun c => !(isBlank c))).reverse) ∧
    load_history_pure lines =
      eraseDupsKeepFirst
        (((lines.map normalize_line).filter (fun c => !(isBlank c))).reverse) ∧
    load_history_pure ["ls".data, "cd /tmp".data, "ls -la".data, "ls".data] =
      ["ls".data, "ls -la".data, "cd /tmp".data] := by
  refine ⟨dedupAux_nodup _ _, dedupAux_sublist _ _, ?_, by decide⟩
  unfold load_history_pure
  rw [dedupAux_eq_eraseDupsKeepFirst]
  congr 1
  apply List.filter_eq_self.mpr
  intro a _
  simp

/-- C3 fails on the code: parsing the input git commit -m "fix bug" keeps the
quoted phrase as the single argument fix bug instead of splitting it at the
quoted space. -/
theorem c3_counterexample :
    parse_command_string ("git commit -m \"fix bug\"".data) ≠
      ("git".data, ["commit".data, "-m".data, "fix".data, "bug".data]) := by
  decide

/-- C3 (amended): tokenizing the input git commit -m "fix bug" yields program
git and argument list commit, -m, fix bug: the quote characters are dropped
and the space between them does not separate tokens. -/
theorem c3_tokenize_example :
    parse_command_string ("git commit -m \"fix bug\"".data) =
      ("git".data, ["commit".data, "-m".data, "fix bug".data]) := by
  decide

/-- C4: `parse_command_string` follows the specified algorithm: it agrees with
the spec's left-to-right quote-toggling scan, emits no empty token and never a
quote character, takes the first token as the program and the rest as the
arguments in order, and maps the empty input to an empty program name with no
arguments. -/
theorem c4_parse_algorithm (input : Str) :
    tokenize input [] false = specTokenize input ∧
    (∀ t ∈ tokenize input [] false, t ≠ [] ∧ '"' ∉ t) ∧
    parse_command_string input =
      ((specTokenize input).headD [], (specTokenize input).tail) ∧
    parse_command_string [] = ([], []) := by
  refine ⟨tokenize_eq_specTokenize input,
    tokenize_tokens input [] false (by simp), ?_, by decide⟩
  unfold parse_command_string
  rw [tokenize_eq_specTokenize]

/-- Witness for C4 at a concrete input and token. -/
theorem c4_witness :
    tokenize ("a b".data) [] false = specTokenize ("a b".data) ∧
    ("a".data ≠ [] ∧ '"' ∉ ("a".data : Str)) :=
  ⟨(c4_parse_algorithm ("a b".data)).1,
   (c4_parse_algorithm ("a b".data)).2.1 "a".data (by decide)⟩

/-- C5: in every state reachable from initialization by any event sequence the
cursor is an in-range index into the filtered view when the view is non-empty
and absent when it is empty; after an append-character or Backspace event the
cursor is 0 when the recomputed view is non-empty, else absent. -/
theorem c5_cursor_invariant (history args : List Str) (ks : List Key)
    (c : Char) :
    InvSel (run (App.new history args) ks) ∧
    (c ≠ 'q' → c ≠ 'j' → c ≠ 'k' →
      ((run (App.new history args) ks).handle_key (Key.char c)).list_state =
        (if ((run (App.new history args) ks).handle_key
              (Key.char c)).filtered_commands = []
         then none else some 0)) ∧
    ((run (App.new history args) ks).handle_key Key.back).list_state =
      (if ((run (App.new history args) ks).handle_key
            Key.back).filtered_commands = []
       then none else some 0) := by
  refine ⟨InvSel_run _ ks (InvSel_new history args), fun hq hj hk => ?_, ?_⟩
  · rw [handle_key_char_eq _ c hq hj hk]
    exact update_filter_reset _
  · rw [handle_key_back_eq]
    exact update_filter_reset _

/-- Witness for C5 at a concrete history and event sequence. -/
theorem c5_witness :
    InvSel (run (App.new ["ab".data] []) [Key.down]) ∧
    ((run (App.new ["ab".data] []) [Key.down]).handle_key
        (Key.char 'a')).list_state =
      (if ((run (App.new ["ab".data] []) [Key.down]).handle_key
            (Key.char 'a')).filtered_commands = []
       then none else some 0) :=
  ⟨(c5_cursor_invariant ["ab".data] [] [Key.down] 'a').1,
   (c5_cursor_invariant ["ab".data] [] [Key.down] 'a').2.1
     (by decide) (by decide) (by decide)⟩

/-- C6: with a non-empty filtered view of length n, MoveDown at cursor n-1
wraps to 0 and otherwise increments the cursor, MoveUp at cursor 0 wraps to
n-1 and otherwise decrements it; with an empty view both leave the state
unchanged. -/
theorem c6_wrap (a : App) (i : Nat) :
    (a.list_state = some i → i < a.filtered_commands.length →
      (a.handle_key Key.down).list_state =
        some (if i = a.filtered_commands.length - 1 then 0 else i + 1) ∧
      (a.handle_key Key.up).list_state =
        some (if i = 0 then a.filtered_commands.length - 1 else i - 1)) ∧
    (a.filtered_commands = [] →
      a.handle_key Key.down = a ∧ a.handle_key Key.up = a) := by
  constructor
  · intro hls hlt
    have hne : a.filtered_commands ≠ [] := by
      intro he
      rw [he] at hlt
      simp at hlt
    constructor
    · rw [handle_key_down_eq, select_next_some a i hne hls]
      show some (if i ≥ a.filtered_commands.length - 1 then 0 else i + 1) =
        some (if i = a.filtered_commands.length - 1 then 0 else i + 1)
      rcases Nat.lt_or_ge i (a.filtered_commands.length - 1) with h | h
      · rw [if_neg (by omega), if_neg (by omega)]
      · rw [if_pos h, if_pos (by omega)]
    · rw [handle_key_up_eq, select_previous_some a i hne hls]
  · intro he
    exact ⟨by rw [handle_key_down_eq, select_next_empty a he],
           by rw [handle_key_up_eq, select_previous_empty a he]⟩

/-- A concrete application state used to witness C6. -/
def appC6 : App :=
  { should_quit := false
    command_history := ["a".data, "b".data]
    list_state := some 1
    search_input := []
    filtered_commands := [0, 1]
    selected_command := none }

/-- Witness for C6 at a concrete state with the cursor on the last entry. -/
theorem c6_witness :
    (appC6.handle_key Key.down).list_state =
      some (if 1 = appC6.filtered_commands.length - 1 then 0 else 1 + 1) ∧
    (appC6.handle_key Key.up).list_state =
      some (if (1 : Nat) = 0 then appC6.filtered_commands.length - 1 else 1 - 1) :=
  (c6_wrap appC6 1).1 (by decide) (by decide)

/-- C7: Quit (Escape or q) terminates the session leaving the recorded
selection unchanged (hence absent when none was recorded); Confirm terminates
the session, recording the history entry reached by resolving the cursor
through the filtered view when the cursor holds a value and leaving the
selection unchanged when it is absent; with no selection the process launches
nothing and exits with status 0. -/
theorem c7_terminal (a : App) (sel idx : Nat) :
    ((a.handle_key Key.esc).should_quit = true ∧
     (a.handle_key Key.esc).selected_command = a.selected_command) ∧
    ((a.handle_key (Key.char 'q')).should_quit = true ∧
     (a.handle_key (Key.char 'q')).selected_command = a.selected_command) ∧
    (a.list_state = some sel → a.filtered_commands.get? sel = some idx →
      (a.handle_key Key.enter).should_quit = true ∧
      (a.handle_key Key.enter).selected_command =
        some (a.command_history.getD idx [])) ∧
    (a.list_state = none →
      (a.handle_key Key.enter).should_quit = true ∧
      (a.handle_key Key.enter).selected_command = a.selected_command) ∧
    finish none = ExitOutcome.exited 0 := by
  refine ⟨⟨rfl, rfl⟩, ⟨rfl, rfl⟩, fun hls hg => ?_, fun hls => ?_, rfl⟩
  · rw [handle_key_enter_some a sel idx hls hg]
    exact ⟨rfl, rfl⟩
  · rw [handle_key_enter_none a hls]
    exact ⟨rfl, rfl⟩

/-- Witness for C7: confirming in a freshly initialized one-entry session
records that entry, and the no-selection outcome is exit status 0. -/
theorem c7_witness :
    ((App.new ["x".data] []).handle_key Key.enter).selected_command =
      some ((App.new ["x".data] []).command_history.getD 0 []) ∧
    finish none = ExitOutcome.exited 0 :=
  ⟨((c7_terminal (App.new ["x".data] []) 0 0).2.2.1 (by decide) (by decide)).2,
   (c7_terminal (App.new ["x".data] []) 0 0).2.2.2.2⟩

/-- C8: a raw line starting with a colon is normalized by stripping everything
up through the first semicolon (and kept verbatim when it has no semicolon),
any other line is used verbatim, lines that are blank after trimming are
dropped from the load, and the line :1610000000:0;ls -la loads as ls -la. -/
theorem c8_normalize (pre post line : Str) (lines : List Str) :
    (';' ∉ pre → normalize_line (':' :: (pre ++ ';' :: post)) = post) ∧
    (startsWithL line [':'] = false → normalize_line line = line) ∧
    (';' ∉ line → normalize_line line = line) ∧
    (∀ c ∈ load_history_pure lines, isBlank c = false) ∧
    normalize_line (":1610000000:0;ls -la".data) = "ls -la".data ∧
    load_history_pure [":1610000000:0;ls -la".data] = ["ls -la".data] := by
  refine ⟨?_, ?_, ?_, ?_, by decide, by decide⟩
  · intro h
    unfold normalize_line
    rw [if_pos (by simp [startsWithL])]
    show (match afterSemi (':' :: (pre ++ ';' :: post)) with
          | some rest => rest
          | none => ':' :: (pre ++ ';' :: post)) = post
    rw [afterSemi, if_neg (by decide), afterSemi_append pre post h]
  · intro h
    unfold normalize_line
    rw [if_neg (by simp [h])]
  · intro h
    unfold normalize_line
    split
    · rw [afterSemi_none line h]
    · rfl
  · intro c hc
    unfold load_history_pure at hc
    have hmem := ((dedupAux_mem [] _ c).mp hc).1
    rw [List.mem_reverse] at hmem
    have := List.mem_filter.mp hmem
    simpa using this.2

/-- Witness for C8 at concrete lines. -/
theorem c8_witness :
    normalize_line (':' :: ("ab".data ++ ';' :: "xy".data)) = "xy".data ∧
    normalize_line ("ls".data) = "ls".data :=
  ⟨(c8_normalize "ab".data "xy".data [] []).1 (by decide),
   (c8_normalize [] [] "ls".data []).2.2.1 (by decide)⟩

/-- C9 fails on the code: with history entries a and b, an empty query and the
cursor moved to index 1, a Backspace event resets the cursor to 0, so the
engine state is not left unchanged. -/
theorem c9_counterexample :
    (run (App.new ["a".data, "b".data] []) [Key.down]).handle_key Key.back ≠
      run (App.new ["a".data, "b".data] []) [Key.down] := by
  decide

/-- C9 (amended): in every reachable state (where the filtered view is the
filter of the history by the query) with an empty query, a Backspace event
leaves the query, the filtered view, the history, the quit flag and the
selection result unchanged and is absorbed without error, but it resets the
selection cursor to 0 (or to none when the view is empty) rather than leaving
it untouched. -/
theorem c9_backspace_empty (a : App) (h args : List Str) (ks : List Key) :
    Coherent (run (App.new h args) ks) ∧
    (Coherent a → a.search_input = [] →
      (a.handle_key Key.back).search_input = a.search_input ∧
      (a.handle_key Key.back).filtered_commands = a.filtered_commands ∧
      (a.handle_key Key.back).command_history = a.command_history ∧
      (a.handle_key Key.back).should_quit = a.should_quit ∧
      (a.handle_key Key.back).selected_command = a.selected_command ∧
      (a.handle_key Key.back).list_state =
        (if a.filtered_commands = [] then none else some 0)) := by
  refine ⟨Coherent_run _ ks (Coherent_new h args), fun hco hemp => ?_⟩
  have hs : a.search_input.dropLast = a.search_input := by
    rw [hemp]
    rfl
  have hf : filter_commands a.command_history a.search_input.dropLast =
      a.filtered_commands := by
    rw [hs]
    exact hco.symm
  rw [handle_key_back_eq]
  refine ⟨hs, hf, rfl, rfl, rfl, ?_⟩
  show (if (filter_commands a.command_history a.search_input.dropLast).isEmpty = true
        then none else (some 0 : Option Nat)) =
    (if a.filtered_commands = [] then none else some 0)
  rw [hf]
  by_cases he : a.filtered_commands = []
  · simp [he]
  · simp [he, List.isEmpty_iff]

/-- Witness for C9 (amended) at a concrete reachable state. -/
theorem c9_witness :
    ((App.new ["a".data] []).handle_key Key.back).filtered_commands =
      (App.new ["a".data] []).filtered_commands ∧
    ((App.new ["a".data] []).handle_key Key.back).list_state =
      (if (App.new ["a".data] []).filtered_commands = [] then none
       else some 0) :=
  ⟨((c9_backspace_empty (App.new ["a".data] []) [] [] []).2
      (Coherent_new ["a".data] []) (by decide)).2.1,
   ((c9_backspace_empty (App.new ["a".data] []) [] [] []).2
      (Coherent_new ["a".data] []) (by decide)).2.2.2.2.2⟩

/-- C10: the characters q, j and k are never appended to the query: q quits
the session, j moves the selection down and k moves it up, so a query free of
these letters stays free of them under every interactive event sequence (they
can only come from the seed query). -/
theorem c10_reserved_keys (a : App) (h args : List Str) (ks : List Key) :
    ((a.handle_key (Key.char 'q')).search_input = a.search_input ∧
     (a.handle_key (Key.char 'q')).should_quit = true) ∧
    ((a.handle_key (Key.char 'j')).search_input = a.search_input ∧
     a.handle_key (Key.char 'j') = a.select_next) ∧
    ((a.handle_key (Key.char 'k')).search_input = a.search_input ∧
     a.handle_key (Key.char 'k') = a.select_previous) ∧
    (NoQJK (App.new h args).search_input →
      NoQJK (run (App.new h args) ks).search_input) := by
  refine ⟨⟨rfl, rfl⟩, ⟨?_, rfl⟩, ⟨?_, rfl⟩, fun hseed => NoQJK_run _ ks hseed⟩
  · rw [handle_key_char_j, select_next_search]
  · rw [handle_key_char_k, select_previous_search]

/-- Witness for C10 at a concrete state and event sequence. -/
theorem c10_witness :
    ((App.new ["a".data] []).handle_key (Key.char 'q')).search_input =
      (App.new ["a".data] []).search_input ∧
    NoQJK (run (App.new ["a".data] []) [Key.char 'x']).search_input := by
  constructor
  · exact (c10_reserved_keys (App.new ["a".data] []) [] [] []).1.1
  · apply (c10_reserved_keys (App.new ["a".data] []) ["a".data] []
      [Key.char 'x']).2.2.2
    intro x hx
    rw [show (App.new ["a".data] []).search_input = [] from by decide] at hx
    cases hx
